import Mathlib

/-!
Verification of the FIFO lot-matching / jeet-classification core of
`src/jeet_tracker.py` (function `analyze_wallet_trades`, lines 71-129).

Shallow embedding choices:
* Python floats for token amounts, USD prices and derived P&L are modelled
  as rationals (ℚ); timestamps are rationals measured in seconds, so that
  `(timestamp - buy_time).total_seconds() / 60` becomes `(ts - buyTime) / 60`.
* The per-token buy queues `buys = defaultdict(deque)` (line 78) become a
  total function `String → List Lot` whose default value is the empty list,
  exactly the defaultdict semantics.
* The price oracle `get_token_price_coingecko` is network I/O and is kept
  abstract as a function parameter `Oracle = String → ℚ → ℚ`; the code calls
  it as `oracle (mint.take 8) timestamp` (line 100: `mint[:8]`).
* The body of the `while` loop (lines 108-127) computes, for each matched
  slice, `hold_min`, `amt_used`, `buy_usd`, `sell_portion` and `loss`; the
  embedding records each slice in a `Slice` value and the conditional
  `jeets.append` (lines 115-122) becomes a filter over those slices with
  exactly the condition of line 115.  The record's `date` field stores the
  raw timestamp (the Python string formatting of line 120 is presentation).
* `sell_usd` (line 107) is computed by the Python code but never used, so it
  is not modelled.
-/

namespace JeetTracker

/-- `LOSS_THRESHOLD = 100` (USD), src line 15. -/
def LOSS_THRESHOLD : ℚ := 100

/-- `HOLD_TIME_MIN = 5` (minutes), src line 16. -/
def HOLD_TIME_MIN : ℚ := 5

/-- One entry of a `buys[mint]` deque: the tuple
`(amount, time, price)` appended at line 103. -/
structure Lot where
  amount : ℚ
  time : ℚ
  price : ℚ
deriving DecidableEq, Repr

/-- The quantities the loop body computes for one matched slice
(lines 109-114): `amt_used`, the head lot's `buy_time` and `buy_price`,
`hold_min` and `loss` (`loss = buy_usd - sell_portion`). -/
structure Slice where
  amtUsed : ℚ
  buyTime : ℚ
  buyPrice : ℚ
  holdMin : ℚ
  loss : ℚ
deriving DecidableEq, Repr

/-- Build the slice the loop body computes when the head lot is `lot`,
the disposal timestamp is `ts`, the sell unit price is `price` and the
matched amount is `amtUsed` (lines 110-114). -/
def mkSlice (ts price : ℚ) (lot : Lot) (amtUsed : ℚ) : Slice :=
  ⟨amtUsed, lot.time, lot.price, (ts - lot.time) / 60,
   amtUsed * lot.price - amtUsed * price⟩

/-- The `while buys[mint] and total_sold < amount_sold` loop of lines
108-127, phrased with `rem = amount_sold - total_sold`.  Returns the
surviving queue together with the list of matched slices in match order.
When `amt_used < buy_amount` the head lot is rewritten in place with the
same `buy_time` and `buy_price` (line 125) and — since then
`amt_used = rem`, making `total_sold = amount_sold` — the loop exits;
otherwise the head lot is popped (line 127) and matching continues. -/
def matchLoop (ts price : ℚ) : ℚ → List Lot → List Lot × List Slice
  | _, [] => ([], [])
  | rem, lot :: rest =>
    if 0 < rem then
      let amtUsed := min lot.amount rem
      let s := mkSlice ts price lot amtUsed
      if amtUsed < lot.amount then
        (⟨lot.amount - amtUsed, lot.time, lot.price⟩ :: rest, [s])
      else
        let r := matchLoop ts price (rem - amtUsed) rest
        (r.1, s :: r.2)
    else (lot :: rest, [])

/-- The classification test of line 115:
`loss > LOSS_THRESHOLD and hold_min < HOLD_TIME_MIN`. -/
def jeetCond (loss holdMin : ℚ) : Prop :=
  LOSS_THRESHOLD < loss ∧ holdMin < HOLD_TIME_MIN

instance (loss holdMin : ℚ) : Decidable (jeetCond loss holdMin) :=
  inferInstanceAs (Decidable (LOSS_THRESHOLD < loss ∧ holdMin < HOLD_TIME_MIN))

/-- The dict appended to `jeets` at lines 116-122.  `date` keeps the raw
timestamp (line 120 only formats it for display). -/
structure JeetRec where
  token : String
  holdTimeMin : ℚ
  lossUsd : ℚ
  date : ℚ
  txSig : String
deriving DecidableEq, Repr

/-- The record built at lines 116-122 for one matched slice:
`token = mint[:8]`. -/
def mkJeet (mint sig : String) (ts : ℚ) (s : Slice) : JeetRec :=
  ⟨mint.take 8, s.holdMin, s.loss, ts, sig⟩

/-- The jeet records one disposal event appends: the conditional append of
lines 115-122, applied to each matched slice in order. -/
def jeetsOf (mint sig : String) (ts : ℚ) (slices : List Slice) : List JeetRec :=
  (slices.filter fun s => decide (jeetCond s.loss s.holdMin)).map (mkJeet mint sig ts)

/-- One balance-change observation for the wallet (lines 94-99):
`amountChange = post_amount - pre_amount`, signed. -/
structure Event where
  mint : String
  sig : String
  timestamp : ℚ
  amountChange : ℚ
deriving DecidableEq, Repr

/-- The price lookup collaborator (`get_token_price_coingecko`), abstract. -/
def Oracle : Type := String → ℚ → ℚ

/-- The `buys` state: `defaultdict(deque)` keyed by full mint (line 78),
defaulting to the empty queue. -/
def Buys : Type := String → List Lot

def emptyBuys : Buys := fun _ => []

/-- Point update of the `buys` map at one mint. -/
def updateBuys (b : Buys) (k : String) (q : List Lot) : Buys :=
  fun m => if m = k then q else b m

/-- Line 100: `price = get_token_price_coingecko(mint[:8], timestamp)` —
the lookup is keyed by the first 8 characters of the mint. -/
def priceOf (oracle : Oracle) (e : Event) : ℚ :=
  oracle (e.mint.take 8) e.timestamp

/-- Lines 100-127 for a single (account, mint) balance change: acquisitions
(`amount_change > 0`) append a lot; disposals (`amount_change < 0`) run the
matching loop and append the jeet records of the matched slices; a zero
delta falls through both branches unchanged. -/
def processEvent (oracle : Oracle) (b : Buys) (e : Event) : Buys × List JeetRec :=
  let price := priceOf oracle e
  if 0 < e.amountChange then
    (updateBuys b e.mint (b e.mint ++ [⟨e.amountChange, e.timestamp, price⟩]), [])
  else if e.amountChange < 0 then
    let r := matchLoop e.timestamp price |e.amountChange| (b e.mint)
    (updateBuys b e.mint r.1, jeetsOf e.mint e.sig e.timestamp r.2)
  else (b, [])

/-- Processing a chronological event stream, accumulating jeet records
(the outer loop of lines 80-128 restricted to the ledger core). -/
def processAll (oracle : Oracle) : Buys → List Event → Buys × List JeetRec
  | b, [] => (b, [])
  | b, e :: rest =>
    let r := processEvent oracle b e
    let r' := processAll oracle r.1 rest
    (r'.1, r.2 ++ r'.2)

/-- Sum of `remaining_amount` over a queue of lots. -/
def totalRemaining (q : List Lot) : ℚ := (q.map Lot.amount).sum

/-- Sum of `amt_used` over a list of matched slices (the loop's final
`total_sold`). -/
def matchedTotal (slices : List Slice) : ℚ := (slices.map Slice.amtUsed).sum

/-- Sum of the positive (acquisition) deltas of an event list. -/
def Aof (es : List Event) : ℚ :=
  (es.map fun e => if 0 < e.amountChange then e.amountChange else 0).sum

/-- Sum of the disposal quantities (absolute negative deltas) of an event
list. -/
def Dof (es : List Event) : ℚ :=
  (es.map fun e => if e.amountChange < 0 then -e.amountChange else 0).sum

/-- Running-availability condition: starting from `avail` units on hand,
every disposal in the list requests at most what is currently available.
Equivalently (from availability `0`): every prefix of the stream disposes
at most what it has acquired. -/
def feasible : ℚ → List Event → Prop
  | _, [] => True
  | avail, e :: rest =>
    (e.amountChange < 0 → -e.amountChange ≤ avail) ∧
      feasible (avail + e.amountChange) rest

instance : ∀ (avail : ℚ) (es : List Event), Decidable (feasible avail es)
  | _, [] => isTrue trivial
  | avail, e :: rest =>
    have : Decidable (feasible (avail + e.amountChange) rest) :=
      instDecidableFeasible _ rest
    inferInstanceAs (Decidable (_ ∧ _))

/-- Fuel-indexed version of the matching loop: one unit of fuel is spent on
each evaluation of the `while` condition, and `none` means the fuel ran out
before the loop exited. -/
def matchLoopF (ts price : ℚ) : Nat → ℚ → List Lot → Option (List Lot × List Slice)
  | 0, _, _ => none
  | _ + 1, _, [] => some ([], [])
  | fuel + 1, rem, lot :: rest =>
    if 0 < rem then
      let amtUsed := min lot.amount rem
      let s := mkSlice ts price lot amtUsed
      if amtUsed < lot.amount then
        match matchLoopF ts price fuel (rem - amtUsed)
            (⟨lot.amount - amtUsed, lot.time, lot.price⟩ :: rest) with
        | none => none
        | some r => some (r.1, s :: r.2)
      else
        match matchLoopF ts price fuel (rem - amtUsed) rest with
        | none => none
        | some r => some (r.1, s :: r.2)
    else some (lot :: rest, [])

/-- Modelled from the spec: §7 `InvalidEvent` — "an event with
`amount_delta == 0` … rejected, not silently coerced".  The repository code
has no error channel at all, so this spec-side wrapper exists only to be
compared with `processEvent`: it rejects a zero delta as a typed error and
otherwise behaves as the code does.  (The spec's further `InvalidEvent`
triggers — negative price, out-of-order timestamp — are not needed for the
comparison and are not modelled.) -/
inductive SpecError where
  | invalidEvent
deriving DecidableEq, Repr

/-- Modelled from the spec: the §4.1/§7 contract that applying an event
either surfaces a typed error or returns the new state and records. -/
def applySpec (oracle : Oracle) (b : Buys) (e : Event) :
    Except SpecError (Buys × List JeetRec) :=
  if e.amountChange = 0 then .error .invalidEvent
  else .ok (processEvent oracle b e)

/-! ### Basic equations of the matching loop -/

theorem matchLoop_nil (ts price rem : ℚ) : matchLoop ts price rem [] = ([], []) := rfl

theorem matchLoop_cons (ts price rem : ℚ) (lot : Lot) (rest : List Lot) :
    matchLoop ts price rem (lot :: rest) =
      if 0 < rem then
        if min lot.amount rem < lot.amount then
          (⟨lot.amount - min lot.amount rem, lot.time, lot.price⟩ :: rest,
           [mkSlice ts price lot (min lot.amount rem)])
        else
          ((matchLoop ts price (rem - min lot.amount rem) rest).1,
           mkSlice ts price lot (min lot.amount rem) ::
             (matchLoop ts price (rem - min lot.amount rem) rest).2)
      else (lot :: rest, []) := by
  rw [matchLoop]

theorem matchLoop_nonpos (ts price rem : ℚ) (lot : Lot) (rest : List Lot)
    (h : rem ≤ 0) : matchLoop ts price rem (lot :: rest) = (lot :: rest, []) := by
  rw [matchLoop_cons, if_neg (not_lt.2 h)]

theorem matchLoop_slice (ts price rem : ℚ) (lot : Lot) (rest : List Lot)
    (h0 : 0 < rem) (h1 : rem < lot.amount) :
    matchLoop ts price rem (lot :: rest) =
      (⟨lot.amount - rem, lot.time, lot.price⟩ :: rest, [mkSlice ts price lot rem]) := by
  rw [matchLoop_cons, if_pos h0, min_eq_right h1.le, if_pos h1]

theorem matchLoop_full (ts price rem : ℚ) (lot : Lot) (rest : List Lot)
    (h0 : 0 < rem) (h1 : lot.amount ≤ rem) :
    matchLoop ts price rem (lot :: rest) =
      ((matchLoop ts price (rem - lot.amount) rest).1,
       mkSlice ts price lot lot.amount ::
         (matchLoop ts price (rem - lot.amount) rest).2) := by
  rw [matchLoop_cons, if_pos h0, min_eq_left h1, if_neg (lt_irrefl lot.amount)]

/-! ### Conservation of quantity through the loop -/

theorem totalRemaining_nil : totalRemaining [] = 0 := rfl

theorem totalRemaining_cons (lot : Lot) (rest : List Lot) :
    totalRemaining (lot :: rest) = lot.amount + totalRemaining rest := by
  simp [totalRemaining]

theorem totalRemaining_append (q q' : List Lot) :
    totalRemaining (q ++ q') = totalRemaining q + totalRemaining q' := by
  simp [totalRemaining]

theorem totalRemaining_matchLoop (ts price : ℚ) :
    ∀ (q : List Lot) (rem : ℚ), 0 ≤ rem → rem ≤ totalRemaining q →
      totalRemaining (matchLoop ts price rem q).1 = totalRemaining q - rem
  | [], rem, h0, h1 => by
    have : rem = 0 := le_antisymm (by simpa [totalRemaining_nil] using h1) h0
    simp [matchLoop_nil, totalRemaining_nil, this]
  | lot :: rest, rem, h0, h1 => by
    rcases lt_or_eq_of_le h0 with hpos | hzero
    · rcases lt_or_le rem lot.amount with hlt | hle
      · rw [matchLoop_slice ts price rem lot rest hpos hlt]
        rw [totalRemaining_cons, totalRemaining_cons]
        ring
      · rw [matchLoop_full ts price rem lot rest hpos hle]
        have h0' : 0 ≤ rem - lot.amount := by linarith
        have h1' : rem - lot.amount ≤ totalRemaining rest := by
          rw [totalRemaining_cons] at h1; linarith
        rw [totalRemaining_matchLoop ts price rest (rem - lot.amount) h0' h1']
        rw [totalRemaining_cons]
        ring
    · rw [matchLoop_nonpos ts price rem lot rest hzero.ge]
      rw [← hzero]
      ring

/-! ### Positivity of surviving lots through the loop -/

theorem matchLoop_pos (ts price : ℚ) :
    ∀ (q : List Lot) (rem : ℚ), (∀ lot ∈ q, 0 < lot.amount) →
      ∀ lot ∈ (matchLoop ts price rem q).1, 0 < lot.amount
  | [], rem, _ => by simp [matchLoop_nil]
  | lot :: rest, rem, h => by
    rcases le_or_lt rem 0 with hle | hpos
    · rw [matchLoop_nonpos ts price rem lot rest hle]; exact h
    · rcases lt_or_le rem lot.amount with hlt | hge
      · rw [matchLoop_slice ts price rem lot rest hpos hlt]
        intro l hl
        rcases List.mem_cons.1 hl with hl | hl
        · subst hl; simpa using sub_pos.2 hlt
        · exact h l (List.mem_cons_of_mem lot hl)
      · rw [matchLoop_full ts price rem lot rest hpos hge]
        exact matchLoop_pos ts price rest (rem - lot.amount)
          (fun l hl => h l (List.mem_cons_of_mem lot hl))

/-! ### Shape of the emitted slices -/

theorem matchLoop_slice_shape (ts price : ℚ) :
    ∀ (q : List Lot) (rem : ℚ), ∀ s ∈ (matchLoop ts price rem q).2,
      s.loss = s.amtUsed * s.buyPrice - s.amtUsed * price ∧
        s.holdMin = (ts - s.buyTime) / 60
  | [], rem => by simp [matchLoop_nil]
  | lot :: rest, rem => by
    rcases le_or_lt rem 0 with hle | hpos
    · rw [matchLoop_nonpos ts price rem lot rest hle]; simp
    · rcases lt_or_le rem lot.amount with hlt | hge
      · rw [matchLoop_slice ts price rem lot rest hpos hlt]
        intro s hs
        rcases List.mem_singleton.1 hs with rfl
        exact ⟨rfl, rfl⟩
      · rw [matchLoop_full ts price rem lot rest hpos hge]
        intro s hs
        rcases List.mem_cons.1 hs with rfl | hs
        · exact ⟨rfl, rfl⟩
        · exact matchLoop_slice_shape ts price rest (rem - lot.amount) s hs

/-! ### Branch equations of event processing -/

theorem updateBuys_self (b : Buys) (k : String) (q : List Lot) :
    updateBuys b k q k = q := by
  simp [updateBuys]

theorem updateBuys_other (b : Buys) (k : String) (q : List Lot) (m : String)
    (h : m ≠ k) : updateBuys b k q m = b m := by
  simp [updateBuys, h]

theorem processEvent_acq (oracle : Oracle) (b : Buys) (e : Event)
    (h : 0 < e.amountChange) :
    processEvent oracle b e =
      (updateBuys b e.mint
        (b e.mint ++ [⟨e.amountChange, e.timestamp, priceOf oracle e⟩]), []) := by
  rw [processEvent]
  simp [h]

theorem processEvent_disp (oracle : Oracle) (b : Buys) (e : Event)
    (h : e.amountChange < 0) :
    processEvent oracle b e =
      (updateBuys b e.mint
        (matchLoop e.timestamp (priceOf oracle e) |e.amountChange| (b e.mint)).1,
       jeetsOf e.mint e.sig e.timestamp
        (matchLoop e.timestamp (priceOf oracle e) |e.amountChange| (b e.mint)).2) := by
  rw [processEvent]
  simp [not_lt.2 h.le, h]

theorem processEvent_zero (oracle : Oracle) (b : Buys) (e : Event)
    (h : e.amountChange = 0) : processEvent oracle b e = (b, []) := by
  rw [processEvent]
  simp [h]

/-! ### The matched total is `min(quantity, available)` -/

theorem mkSlice_amtUsed (ts price : ℚ) (lot : Lot) (a : ℚ) :
    (mkSlice ts price lot a).amtUsed = a := rfl

theorem matchedTotal_nil : matchedTotal [] = 0 := rfl

theorem matchedTotal_cons (s : Slice) (rest : List Slice) :
    matchedTotal (s :: rest) = s.amtUsed + matchedTotal rest := by
  simp [matchedTotal]

theorem matchedTotal_matchLoop (ts price : ℚ) :
    ∀ (q : List Lot) (rem : ℚ), 0 ≤ rem → (∀ lot ∈ q, 0 < lot.amount) →
      matchedTotal (matchLoop ts price rem q).2 = min rem (totalRemaining q)
  | [], rem, h0, _ => by
    simp [matchLoop_nil, matchedTotal_nil, totalRemaining_nil, min_eq_right h0]
  | lot :: rest, rem, h0, hpos => by
    have hlot : 0 < lot.amount := hpos lot (List.mem_cons_self lot rest)
    have hrest : ∀ l ∈ rest, 0 < l.amount :=
      fun l hl => hpos l (List.mem_cons_of_mem lot hl)
    have htr : 0 ≤ totalRemaining rest := by
      have : ∀ (q' : List Lot), (∀ l ∈ q', 0 < l.amount) → 0 ≤ totalRemaining q' := by
        intro q'
        induction q' with
        | nil => intro _; simp [totalRemaining_nil]
        | cons a as ih =>
          intro hq
          rw [totalRemaining_cons]
          have h1 := hq a (List.mem_cons_self a as)
          have h2 := ih fun l hl => hq l (List.mem_cons_of_mem a hl)
          linarith
      exact this rest hrest
    rcases lt_or_eq_of_le h0 with hgt | heq
    · rcases lt_or_le rem lot.amount with hlt | hge
      · rw [matchLoop_slice ts price rem lot rest hgt hlt]
        rw [totalRemaining_cons]
        have : rem ≤ lot.amount + totalRemaining rest := by linarith
        simp [matchedTotal_cons, matchedTotal_nil, min_eq_left this, mkSlice_amtUsed]
      · rw [matchLoop_full ts price rem lot rest hgt hge]
        rw [matchedTotal_cons, totalRemaining_cons, mkSlice_amtUsed]
        rw [matchedTotal_matchLoop ts price rest (rem - lot.amount) (by linarith) hrest]
        rcases le_total (rem - lot.amount) (totalRemaining rest) with hc | hc
        · rw [min_eq_left hc, min_eq_left (by linarith)]
          ring
        · rw [min_eq_right hc, min_eq_right (by linarith)]
    · rw [matchLoop_nonpos ts price rem lot rest heq.ge, ← heq]
      rw [totalRemaining_cons, matchedTotal_nil, min_eq_left (by linarith)]

/-! ### Conservation through a whole event stream -/

theorem processAll_nil (oracle : Oracle) (b : Buys) : processAll oracle b [] = (b, []) := rfl

theorem processAll_cons (oracle : Oracle) (b : Buys) (e : Event) (rest : List Event) :
    processAll oracle b (e :: rest) =
      ((processAll oracle (processEvent oracle b e).1 rest).1,
       (processEvent oracle b e).2 ++
         (processAll oracle (processEvent oracle b e).1 rest).2) := by
  rw [processAll]

theorem Aof_sub_Dof : ∀ es : List Event, Aof es - Dof es = (es.map Event.amountChange).sum
  | [] => by simp [Aof, Dof]
  | e :: rest => by
    have ih := Aof_sub_Dof rest
    simp only [Aof, Dof, List.map_cons, List.sum_cons] at ih ⊢
    split_ifs <;> linarith

theorem totalRemaining_processAll (oracle : Oracle) (mint : String) :
    ∀ (es : List Event) (b : Buys), (∀ e ∈ es, e.mint = mint) →
      feasible (totalRemaining (b mint)) es →
      totalRemaining ((processAll oracle b es).1 mint) =
        totalRemaining (b mint) + (es.map Event.amountChange).sum
  | [], b, _, _ => by simp [processAll_nil]
  | e :: rest, b, hm, hf => by
    have hemint : e.mint = mint := hm e (List.mem_cons_self e rest)
    obtain ⟨hcond, hf'⟩ := hf
    have hmrest : ∀ e' ∈ rest, e'.mint = mint :=
      fun e' he' => hm e' (List.mem_cons_of_mem e he')
    rw [processAll_cons]
    have key : totalRemaining ((processEvent oracle b e).1 mint) =
        totalRemaining (b mint) + e.amountChange := by
      rcases lt_trichotomy e.amountChange 0 with hneg | hzero | hpos
      · rw [processEvent_disp oracle b e hneg, hemint]
        dsimp only
        rw [updateBuys_self]
        have habs : |e.amountChange| = -e.amountChange := abs_of_neg hneg
        rw [habs]
        rw [totalRemaining_matchLoop _ _ (b mint) (-e.amountChange) (by linarith)
          (by rw [← hemint] at hcond ⊢; exact hcond hneg)]
        ring
      · rw [processEvent_zero oracle b e hzero, hzero]
        ring
      · rw [processEvent_acq oracle b e hpos, hemint]
        dsimp only
        rw [updateBuys_self]
        rw [totalRemaining_append, totalRemaining_cons, totalRemaining_nil]
        ring
    have hf'' : feasible (totalRemaining ((processEvent oracle b e).1 mint)) rest := by
      rw [key]; exact hf'
    rw [totalRemaining_processAll oracle mint rest (processEvent oracle b e).1 hmrest hf'']
    rw [key, List.map_cons, List.sum_cons]
    ring

/-! ### The fuelled loop agrees with the structural one -/

theorem matchLoopF_succ_nil (ts price : ℚ) (fuel : Nat) (rem : ℚ) :
    matchLoopF ts price (fuel + 1) rem [] = some ([], []) := rfl

theorem matchLoopF_succ_nonpos (ts price : ℚ) (fuel : Nat) (rem : ℚ) (lot : Lot)
    (rest : List Lot) (h : rem ≤ 0) :
    matchLoopF ts price (fuel + 1) rem (lot :: rest) = some (lot :: rest, []) := by
  rw [matchLoopF, if_neg (not_lt.2 h)]

theorem matchLoopF_succ_slice (ts price : ℚ) (fuel : Nat) (rem : ℚ) (lot : Lot)
    (rest : List Lot) (h0 : 0 < rem) (h1 : rem < lot.amount) :
    matchLoopF ts price (fuel + 1) rem (lot :: rest) =
      match matchLoopF ts price fuel 0
          (⟨lot.amount - rem, lot.time, lot.price⟩ :: rest) with
      | none => none
      | some r => some (r.1, mkSlice ts price lot rem :: r.2) := by
  simp only [matchLoopF, if_pos h0, min_eq_right h1.le, if_pos h1, sub_self]

theorem matchLoopF_succ_full (ts price : ℚ) (fuel : Nat) (rem : ℚ) (lot : Lot)
    (rest : List Lot) (h0 : 0 < rem) (h1 : lot.amount ≤ rem) :
    matchLoopF ts price (fuel + 1) rem (lot :: rest) =
      match matchLoopF ts price fuel (rem - lot.amount) rest with
      | none => none
      | some r => some (r.1, mkSlice ts price lot lot.amount :: r.2) := by
  simp only [matchLoopF, if_pos h0, min_eq_left h1, lt_irrefl, if_false]

theorem matchLoopF_complete (ts price : ℚ) :
    ∀ (q : List Lot) (rem : ℚ) (fuel : Nat), q.length + 2 ≤ fuel →
      matchLoopF ts price fuel rem q = some (matchLoop ts price rem q) := by
  intro q
  induction q with
  | nil =>
    intro rem fuel h
    rcases fuel with _ | f
    · omega
    · rw [matchLoopF_succ_nil, matchLoop_nil]
  | cons lot rest ih =>
    intro rem fuel h
    rcases fuel with _ | f
    · omega
    · have hf : rest.length + 2 ≤ f := by
        simp only [List.length_cons] at h; omega
      rcases le_or_lt rem 0 with hle | hpos
      · rw [matchLoopF_succ_nonpos ts price f rem lot rest hle,
            matchLoop_nonpos ts price rem lot rest hle]
      · rcases lt_or_le rem lot.amount with hlt | hge
        · rw [matchLoopF_succ_slice ts price f rem lot rest hpos hlt,
              matchLoop_slice ts price rem lot rest hpos hlt]
          rcases f with _ | f'
          · omega
          · rw [matchLoopF_succ_nonpos ts price f' 0
              ⟨lot.amount - rem, lot.time, lot.price⟩ rest le_rfl]
        · rw [matchLoopF_succ_full ts price f rem lot rest hpos hge,
              matchLoop_full ts price rem lot rest hpos hge,
              ih (rem - lot.amount) f hf]

/-! ### Token fields of emitted records -/

theorem jeetsOf_token (mint sig : String) (ts : ℚ) (slices : List Slice) :
    ∀ r ∈ jeetsOf mint sig ts slices, r.token = mint.take 8 := by
  intro r hr
  rw [jeetsOf] at hr
  obtain ⟨s, -, rfl⟩ := List.mem_map.1 hr
  simp only [mkJeet]

theorem processEvent_token (oracle : Oracle) (b : Buys) (e : Event) :
    ∀ r ∈ (processEvent oracle b e).2, r.token = e.mint.take 8 := by
  rcases lt_trichotomy e.amountChange 0 with hneg | hzero | hpos
  · rw [processEvent_disp oracle b e hneg]
    exact jeetsOf_token _ _ _ _
  · rw [processEvent_zero oracle b e hzero]
    simp
  · rw [processEvent_acq oracle b e hpos]
    simp

theorem mem_jeetsOf (mint sig : String) (ts : ℚ) (slices : List Slice) (s : Slice)
    (hs : s ∈ slices) :
    mkJeet mint sig ts s ∈ jeetsOf mint sig ts slices ↔ jeetCond s.loss s.holdMin := by
  rw [jeetsOf]
  constructor
  · intro hr
    obtain ⟨s', hs', heq⟩ := List.mem_map.1 hr
    obtain ⟨-, hcond⟩ := List.mem_filter.1 hs'
    have hl : s'.loss = s.loss := congrArg JeetRec.lossUsd heq
    have hh : s'.holdMin = s.holdMin := congrArg JeetRec.holdTimeMin heq
    rw [← hl, ← hh]
    exact of_decide_eq_true hcond
  · intro hc
    exact List.mem_map.2 ⟨s, List.mem_filter.2 ⟨hs, decide_eq_true hc⟩, rfl⟩

/-! ## Claims -/

/-- C1: every disposal is matched against the open lots of its token in FIFO
order starting at the head of the queue; each matched slice has amount
`min(lot.remaining_amount, to_match)`; when `lot.remaining_amount ≤ to_match`
the lot is removed, otherwise its remaining amount drops by `to_match` with
`acquired_at` and `unit_cost_usd` unchanged; matching stops when `to_match`
is 0 or the queue is empty.  Concretely, lots (10 @ cost 1, t=0) then
(10 @ cost 2, t=1) disposed 15 @ price 3 give slices (10, cost 1, pnl 20)
then (5, cost 2, pnl 5), the surviving head lot being (5, t=1, cost 2);
pnl is the negation of the code's `loss`. -/
theorem fifo_matching_spec :
    (∀ (ts price rem : ℚ) (lot : Lot) (rest : List Lot), 0 < rem →
       (lot.amount ≤ rem →
          matchLoop ts price rem (lot :: rest) =
            ((matchLoop ts price (rem - lot.amount) rest).1,
             mkSlice ts price lot lot.amount ::
               (matchLoop ts price (rem - lot.amount) rest).2)) ∧
       (rem < lot.amount →
          matchLoop ts price rem (lot :: rest) =
            (⟨lot.amount - rem, lot.time, lot.price⟩ :: rest,
             [mkSlice ts price lot rem])) ∧
       (mkSlice ts price lot (min lot.amount rem)).amtUsed = min lot.amount rem) ∧
    (∀ ts price rem : ℚ, matchLoop ts price rem [] = ([], [])) ∧
    (matchLoop 2 3 15 [⟨10, 0, 1⟩, ⟨10, 1, 2⟩] =
       ([⟨5, 1, 2⟩], [mkSlice 2 3 ⟨10, 0, 1⟩ 10, mkSlice 2 3 ⟨10, 1, 2⟩ 5]) ∧
     (mkSlice 2 3 ⟨10, 0, 1⟩ 10).amtUsed = 10 ∧
     (mkSlice 2 3 ⟨10, 0, 1⟩ 10).buyPrice = 1 ∧
     -(mkSlice 2 3 ⟨10, 0, 1⟩ 10).loss = 20 ∧
     (mkSlice 2 3 ⟨10, 1, 2⟩ 5).amtUsed = 5 ∧
     (mkSlice 2 3 ⟨10, 1, 2⟩ 5).buyPrice = 2 ∧
     -(mkSlice 2 3 ⟨10, 1, 2⟩ 5).loss = 5) := by
  refine ⟨?_, matchLoop_nil, ?_, rfl, rfl, ?_, rfl, rfl, ?_⟩
  · intro ts price rem lot rest h0
    exact ⟨fun h1 => matchLoop_full ts price rem lot rest h0 h1,
           fun h1 => matchLoop_slice ts price rem lot rest h0 h1,
           mkSlice_amtUsed ts price lot (min lot.amount rem)⟩
  · norm_num [matchLoop, mkSlice, min_def]
  · norm_num [mkSlice]
  · norm_num [mkSlice]

theorem fifo_matching_spec_witness :
    (mkSlice 2 3 ⟨10, 1, 2⟩ (min (⟨10, 1, 2⟩ : Lot).amount 5)).amtUsed =
      min (⟨10, 1, 2⟩ : Lot).amount 5 :=
  (fifo_matching_spec.1 2 3 5 ⟨10, 1, 2⟩ [] (by norm_num)).2.2

/-- C2 counterexample: the claim's classification rule uses a non-strict
bound on the hold time (`hold ≤ 5 min`), so a slice with pnl −150 USD
(loss 150) held exactly 5 minutes would be a jeet; the code's test on
line 115 is `hold_min < HOLD_TIME_MIN`, strict, and rejects it. -/
theorem jeet_rule_cex :
    ((-150 : ℚ) < -LOSS_THRESHOLD ∧ (5 : ℚ) ≤ HOLD_TIME_MIN) ∧
      ¬ jeetCond 150 5 := by
  norm_num [jeetCond, LOSS_THRESHOLD, HOLD_TIME_MIN]

/-- C2 corrected: a slice is classified as a jeet iff its realized pnl `p`
satisfies `p < -LOSS_THRESHOLD` AND its hold time is strictly below
`HOLD_TIME_MIN` (strict on BOTH bounds; the code's `loss` is `-p`); and a
slice's record is in the output of `jeetsOf` exactly when the slice passes
the line-115 test. -/
theorem jeet_rule_spec :
    (∀ pnl holdMin : ℚ,
       jeetCond (-pnl) holdMin ↔ pnl < -LOSS_THRESHOLD ∧ holdMin < HOLD_TIME_MIN) ∧
    (∀ (mint sig : String) (ts : ℚ) (slices : List Slice), ∀ s ∈ slices,
       (mkJeet mint sig ts s ∈ jeetsOf mint sig ts slices ↔
         jeetCond s.loss s.holdMin)) := by
  constructor
  · intro pnl holdMin
    unfold jeetCond
    constructor
    · rintro ⟨h1, h2⟩
      exact ⟨by linarith, h2⟩
    · rintro ⟨h1, h2⟩
      exact ⟨by linarith, h2⟩
  · intro mint sig ts slices s hs
    exact mem_jeetsOf mint sig ts slices s hs

theorem jeet_rule_spec_witness :
    mkJeet "MINTAAAA" "sg" 60 (mkSlice 60 1 ⟨10, 0, 50⟩ 10) ∈
        jeetsOf "MINTAAAA" "sg" 60 [mkSlice 60 1 ⟨10, 0, 50⟩ 10] ↔
      jeetCond (mkSlice 60 1 ⟨10, 0, 50⟩ 10).loss (mkSlice 60 1 ⟨10, 0, 50⟩ 10).holdMin :=
  jeet_rule_spec.2 "MINTAAAA" "sg" 60 [mkSlice 60 1 ⟨10, 0, 50⟩ 10]
    (mkSlice 60 1 ⟨10, 0, 50⟩ 10) (by simp)

/-- C3 counterexample: disposing 20 units with no tracked lots (empty
queue) at price 3 produces NO matched slice at all — in particular no
20-unit zero-cost synthetic slice; the residual is silently dropped,
contrary to the claim. -/
theorem shortfall_cex :
    matchLoop 0 3 20 [] = ([], []) ∧
      ¬ ∃ s, s ∈ (matchLoop 0 3 20 []).2 ∧ s.amtUsed = 20 := by
  refine ⟨rfl, ?_⟩
  rintro ⟨s, hs, -⟩
  rw [matchLoop_nil] at hs
  simp at hs

/-- C3 corrected: there is no synthetic zero-cost fallback.  When the queue
empties before the disposal quantity is matched, the loop just stops: an
empty queue yields no slices, and in general the matched total is exactly
`min(to_match, total available)` — the residual beyond the available total
produces no slice, no record and no error. -/
theorem shortfall_spec :
    (∀ ts price rem : ℚ, matchLoop ts price rem [] = ([], [])) ∧
    (∀ (ts price rem : ℚ) (q : List Lot), 0 ≤ rem →
       (∀ lot ∈ q, 0 < lot.amount) →
       matchedTotal (matchLoop ts price rem q).2 = min rem (totalRemaining q)) :=
  ⟨matchLoop_nil, fun ts price rem q h0 h1 => matchedTotal_matchLoop ts price q rem h0 h1⟩

theorem shortfall_spec_witness :
    matchedTotal (matchLoop 0 3 20 []).2 = min 20 (totalRemaining []) :=
  shortfall_spec.2 0 3 20 [] (by norm_num) (by simp)

/-- C4 counterexample: a disposal of 10 units against the single lot
(10 @ cost 1, t=0) at sell price 2 consumes exactly one slice (a gain), yet
the event's output record list is empty — the code emits a record per slice
only when the line-115 jeet test passes, not one `RealizedTrade` per
consumed slice as the claim states. -/
theorem apply_records_cex :
    (matchLoop 60 2 10 [⟨10, 0, 1⟩]).2.length = 1 ∧
    (processEvent (fun _ _ => 2) (updateBuys emptyBuys "MINTAAAA" [⟨10, 0, 1⟩])
        ⟨"MINTAAAA", "sg", 60, -10⟩).2 = [] := by
  constructor
  · norm_num [matchLoop, mkSlice, min_def]
  · norm_num [processEvent, priceOf, updateBuys, emptyBuys, matchLoop, mkSlice,
      jeetsOf, jeetCond, LOSS_THRESHOLD, HOLD_TIME_MIN, min_def, abs]

/-- C4 corrected: an acquisition returns no records; a disposal's output is
the jeet-filtered view of its matched slices (a record appears only for a
slice passing the line-115 test `loss > 100 ∧ hold < 5 min`), not one
record per consumed slice; each matched slice's `loss` is
`amt_used * buy_price − amt_used * sell_price` (so the pnl, `−loss`, is
`amt_used * (sell_price − buy_price)`), and its hold time is
`(ts − buy_time)/60`. -/
theorem apply_records_spec :
    (∀ (oracle : Oracle) (b : Buys) (e : Event), 0 < e.amountChange →
       (processEvent oracle b e).2 = []) ∧
    (∀ (oracle : Oracle) (b : Buys) (e : Event), e.amountChange < 0 →
       (processEvent oracle b e).2 =
         jeetsOf e.mint e.sig e.timestamp
           (matchLoop e.timestamp (priceOf oracle e) |e.amountChange| (b e.mint)).2) ∧
    (∀ (ts price rem : ℚ) (q : List Lot), ∀ s ∈ (matchLoop ts price rem q).2,
       s.loss = s.amtUsed * s.buyPrice - s.amtUsed * price ∧
         s.holdMin = (ts - s.buyTime) / 60) := by
  refine ⟨?_, ?_, ?_⟩
  · intro oracle b e h
    rw [processEvent_acq oracle b e h]
  · intro oracle b e h
    rw [processEvent_disp oracle b e h]
  · intro ts price rem q
    exact matchLoop_slice_shape ts price q rem

theorem apply_records_spec_witness :
    (processEvent (fun _ _ => 1) emptyBuys ⟨"MINTBBBB", "sg", 0, 3⟩).2 = [] :=
  apply_records_spec.1 (fun _ _ => 1) emptyBuys ⟨"MINTBBBB", "sg", 0, 3⟩ (by norm_num)

/-- C5 counterexample: the claim quantifies over any sequence with total
disposals D ≤ total acquisitions A.  Take a disposal of 5 before an
acquisition of 10 (same token, valid chronological input): A = 10, D = 5,
D ≤ A, yet the final queue holds 10 units, not A − D = 5 — the early
disposal found an empty queue and its quantity was dropped. -/
theorem conservation_cex :
    Dof [⟨"TOKAAAAA", "s1", 0, -5⟩, ⟨"TOKAAAAA", "s2", 60, 10⟩] ≤
      Aof [⟨"TOKAAAAA", "s1", 0, -5⟩, ⟨"TOKAAAAA", "s2", 60, 10⟩] ∧
    Aof [⟨"TOKAAAAA", "s1", 0, -5⟩, ⟨"TOKAAAAA", "s2", 60, 10⟩] -
      Dof [⟨"TOKAAAAA", "s1", 0, -5⟩, ⟨"TOKAAAAA", "s2", 60, 10⟩] = 5 ∧
    totalRemaining ((processAll (fun _ _ => 1) emptyBuys
        [⟨"TOKAAAAA", "s1", 0, -5⟩, ⟨"TOKAAAAA", "s2", 60, 10⟩]).1 "TOKAAAAA") = 10 ∧
    (10 : ℚ) ≠ 5 := by
  refine ⟨?_, ?_, ?_, by norm_num⟩
  · norm_num [Aof, Dof]
  · norm_num [Aof, Dof]
  · norm_num [processAll, processEvent, priceOf, updateBuys, emptyBuys,
      matchLoop, jeetsOf, totalRemaining, abs]

/-- C5 corrected: conservation holds under the stronger, pointwise premise
that every disposal requests at most what is currently available
(`feasible 0 es`, i.e. every prefix of the stream disposes no more than it
has acquired) — the claim's global premise D ≤ A is not enough.  Then the
final total remaining equals A − D exactly. -/
theorem conservation_spec (oracle : Oracle) (mint : String) (es : List Event)
    (hm : ∀ e ∈ es, e.mint = mint) (hf : feasible 0 es) :
    totalRemaining ((processAll oracle emptyBuys es).1 mint) = Aof es - Dof es := by
  rw [Aof_sub_Dof]
  have h0 : totalRemaining (emptyBuys mint) = 0 := rfl
  have key := totalRemaining_processAll oracle mint es emptyBuys hm (by rw [h0]; exact hf)
  rw [key, h0, zero_add]

theorem conservation_spec_witness :
    totalRemaining ((processAll (fun _ _ => 1) emptyBuys
        [⟨"TOKAAAAA", "s1", 0, 10⟩, ⟨"TOKAAAAA", "s2", 60, -4⟩]).1 "TOKAAAAA") =
      Aof [⟨"TOKAAAAA", "s1", 0, 10⟩, ⟨"TOKAAAAA", "s2", 60, -4⟩] -
        Dof [⟨"TOKAAAAA", "s1", 0, 10⟩, ⟨"TOKAAAAA", "s2", 60, -4⟩] :=
  conservation_spec (fun _ _ => 1) "TOKAAAAA"
    [⟨"TOKAAAAA", "s1", 0, 10⟩, ⟨"TOKAAAAA", "s2", 60, -4⟩]
    (by intro e he; fin_cases he <;> rfl)
    (by norm_num [feasible])

/-- C6: if every lot in every (wallet, token) queue has positive remaining
amount, then after processing any single event (acquisition, disposal or
zero delta) every surviving lot still has positive remaining amount: a lot
driven to 0 is popped (line 127), a partially consumed lot keeps a strictly
positive residue (line 125), and an appended lot carries the event's
positive delta (line 103). -/
theorem lot_positivity_spec (oracle : Oracle) (b : Buys) (e : Event)
    (h : ∀ m : String, ∀ lot ∈ b m, 0 < lot.amount) :
    ∀ m : String, ∀ lot ∈ (processEvent oracle b e).1 m, 0 < lot.amount := by
  rcases lt_trichotomy e.amountChange 0 with hneg | hzero | hpos
  · rw [processEvent_disp oracle b e hneg]
    intro m lot hl
    dsimp only at hl
    by_cases hm : m = e.mint
    · subst hm
      rw [updateBuys_self] at hl
      exact matchLoop_pos _ _ _ _ (h e.mint) lot hl
    · rw [updateBuys_other _ _ _ _ hm] at hl
      exact h m lot hl
  · rw [processEvent_zero oracle b e hzero]
    exact h
  · rw [processEvent_acq oracle b e hpos]
    intro m lot hl
    dsimp only at hl
    by_cases hm : m = e.mint
    · subst hm
      rw [updateBuys_self] at hl
      rcases List.mem_append.1 hl with hl | hl
      · exact h e.mint lot hl
      · rcases List.mem_singleton.1 hl with rfl
        exact hpos
    · rw [updateBuys_other _ _ _ _ hm] at hl
      exact h m lot hl

theorem lot_positivity_spec_witness :
    0 < (⟨2, 0, 1⟩ : Lot).amount :=
  lot_positivity_spec (fun _ _ => 1) emptyBuys ⟨"MINTAAAA", "sg", 0, 2⟩
    (by intro m lot hl; simp [emptyBuys] at hl) "MINTAAAA" ⟨2, 0, 1⟩
    (by norm_num [processEvent, priceOf, updateBuys, emptyBuys])

/-- C7: processing one event touches only the queue of that event's mint —
for every other mint the queue is pointwise unchanged (the code reads and
writes `buys[mint]` only, lines 103-127). -/
theorem cross_token_frame_spec (oracle : Oracle) (b : Buys) (e : Event)
    (m : String) (h : m ≠ e.mint) : (processEvent oracle b e).1 m = b m := by
  rcases lt_trichotomy e.amountChange 0 with hneg | hzero | hpos
  · rw [processEvent_disp oracle b e hneg]
    exact updateBuys_other _ _ _ _ h
  · rw [processEvent_zero oracle b e hzero]
  · rw [processEvent_acq oracle b e hpos]
    exact updateBuys_other _ _ _ _ h

theorem cross_token_frame_spec_witness :
    (processEvent (fun _ _ => 1) emptyBuys ⟨"MINTAAAA", "sg", 0, 1⟩).1 "OTHERTOK" =
      emptyBuys "OTHERTOK" :=
  cross_token_frame_spec (fun _ _ => 1) emptyBuys ⟨"MINTAAAA", "sg", 0, 1⟩
    "OTHERTOK" (by decide)

/-- C8 counterexample: a zero-delta event is NOT rejected: the code falls
through both branches of lines 102-104 and returns normally with the state
unchanged and no records; there is no error channel at all.  The spec-side
model `applySpec` (which does reject it as `InvalidEvent`, per §7 of the
spec) disagrees with the code at this input. -/
theorem invalid_event_cex :
    applySpec (fun _ _ => 1) emptyBuys ⟨"MINTAAAA", "sg", 0, 0⟩ =
      Except.error SpecError.invalidEvent ∧
    processEvent (fun _ _ => 1) emptyBuys ⟨"MINTAAAA", "sg", 0, 0⟩ =
      (emptyBuys, []) := by
  constructor
  · simp [applySpec]
  · simp [processEvent]

/-- C8 corrected: an event with `amount_delta = 0` is silently skipped: the
queues are unchanged, no record is emitted, and no error is surfaced (the
code has no error path; the caller cannot observe the event at all). -/
theorem zero_delta_spec (oracle : Oracle) (b : Buys) (e : Event)
    (h : e.amountChange = 0) : processEvent oracle b e = (b, []) :=
  processEvent_zero oracle b e h

theorem zero_delta_spec_witness :
    processEvent (fun _ _ => 1) emptyBuys ⟨"TOKENBBB", "sg", 1, 0⟩ =
      (emptyBuys, []) :=
  zero_delta_spec (fun _ _ => 1) emptyBuys ⟨"TOKENBBB", "sg", 1, 0⟩ rfl

/-- C9: the disposal-matching loop terminates on every input: running the
loop one `while`-condition check at a time (`matchLoopF`, `none` = fuel
exhausted) with any fuel of at least `queue length + 2` reaches the exit and
returns exactly the total function `matchLoop` — each iteration either pops
one lot or fills the disposal completely and stops at the next check. -/
theorem matching_terminates_spec :
    ∀ (ts price rem : ℚ) (q : List Lot) (fuel : Nat), q.length + 2 ≤ fuel →
      matchLoopF ts price fuel rem q = some (matchLoop ts price rem q) :=
  fun ts price rem q fuel h => matchLoopF_complete ts price q rem fuel h

theorem matching_terminates_spec_witness :
    matchLoopF 2 3 4 15 [⟨10, 0, 1⟩, ⟨10, 1, 2⟩] =
      some (matchLoop 2 3 15 [⟨10, 0, 1⟩, ⟨10, 1, 2⟩]) :=
  matching_terminates_spec 2 3 15 [⟨10, 0, 1⟩, ⟨10, 1, 2⟩] 4 (by norm_num)

/-- C10: every emitted record's `token` field is the first 8 characters of
the event's mint (`mint[:8]`, line 117), the price lookup is keyed by the
same truncated mint (line 100), and consequently records produced for two
mints sharing an 8-character prefix carry indistinguishable `token`
fields. -/
theorem token_truncation_spec :
    (∀ (oracle : Oracle) (b : Buys) (e : Event),
       ∀ r ∈ (processEvent oracle b e).2, r.token = e.mint.take 8) ∧
    (∀ (oracle : Oracle) (e1 e2 : Event), e1.mint.take 8 = e2.mint.take 8 →
       e1.timestamp = e2.timestamp → priceOf oracle e1 = priceOf oracle e2) ∧
    (∀ (oracle1 oracle2 : Oracle) (b1 b2 : Buys) (e1 e2 : Event),
       e1.mint.take 8 = e2.mint.take 8 →
       ∀ r1 ∈ (processEvent oracle1 b1 e1).2, ∀ r2 ∈ (processEvent oracle2 b2 e2).2,
         r1.token = r2.token) := by
  refine ⟨processEvent_token, ?_, ?_⟩
  · intro oracle e1 e2 h1 h2
    rw [priceOf, priceOf, h1, h2]
  · intro o1 o2 b1 b2 e1 e2 hpre r1 hr1 r2 hr2
    rw [processEvent_token o1 b1 e1 r1 hr1, processEvent_token o2 b2 e2 r2 hr2, hpre]

theorem token_truncation_spec_witness :
    priceOf (fun _ t => t) ⟨"ABCDEFGHIJ", "s1", 7, 1⟩ =
      priceOf (fun _ t => t) ⟨"ABCDEFGHKL", "s2", 7, -1⟩ :=
  token_truncation_spec.2.1 (fun _ t => t) ⟨"ABCDEFGHIJ", "s1", 7, 1⟩
    ⟨"ABCDEFGHKL", "s2", 7, -1⟩ (by decide) rfl

end JeetTracker
